import Mathlib

/-!
# Verification of the obsidian-link-indexer-pnx Link Aggregation Engine

A shallow embedding of `src/main.ts` (current version): the reference
parser (`cleanWikiLink`, `extractDisplayName`, `extractAlias`), path
normalization (`removeDots`, `pathEqual`), the path filter (`isExcluded`),
the link aggregator (`grabLinks` / per-file processing), the report
renderer (sorting and row serialization) and the command-level entry
point (`generateAllUsedLinksIndex`, `getPresetByName`).

Modelling conventions:
* JavaScript strings are Lean `String`s; most character-level work is done
  on `List Char` with `String` wrappers keeping the source names.
* `Record<string, IndexNode>` is modelled as an association list in
  insertion order (JS plain objects enumerate non-numeric string keys in
  insertion order, which is how the code uses the record).
* Host (Obsidian) collaborators — link-path extraction, link resolution,
  shortest-link-text computation, regex and glob matching — are fields of
  a `Host` parameter record: they are external to the repository.
* `Array.prototype.sort`, which ECMAScript requires to be stable, is
  modelled by insertion-sorting the index-enumerated entry list by the
  lexicographic (comparator key, original index) total order; for a
  consistent comparator this order is antisymmetric on the enumerated
  list, so its sorted permutation is unique and equals the stable sort.
-/

/-! ## Character-level helpers (JS string primitives) -/

/-- JS `String.prototype.trim` (restricted to ASCII whitespace): drop
whitespace from both ends. -/
def jsTrimL (l : List Char) : List Char :=
  ((l.dropWhile Char.isWhitespace).reverse.dropWhile Char.isWhitespace).reverse

/-- JS `String.prototype.split` with a single-character separator:
`"a|b|c".split('|') = ["a","b","c"]`, `"".split('|') = [""]`. -/
def jsSplitChar (sep : Char) : List Char → List (List Char)
  | [] => [[]]
  | c :: cs =>
    match jsSplitChar sep cs with
    | [] => [[]]
    | h :: t => if c = sep then [] :: h :: t else (c :: h) :: t

/-- JS `String.prototype.toLowerCase` (modelled per character, as the
code only uses it on path/display strings). -/
def jsToLower (s : String) : String :=
  (s.toList.map Char.toLower).asString

/-- JS `String.prototype.endsWith` for a fixed suffix. -/
def jsEndsWith (s suffix : String) : Bool :=
  s.toList.reverse.take suffix.toList.length = suffix.toList.reverse

/-! ## Reference Parser (`cleanWikiLink`, `extractDisplayName`, `extractAlias`) -/

/-- `cleanWikiLink` on `List Char`: remove a leading `[[` (regex `^\[\[`)
and then a trailing `]]` (regex `\]\]$`), each at most once. -/
def cleanWikiLinkL (l : List Char) : List Char :=
  let l1 := if l.take 2 = ['[', '['] then l.drop 2 else l
  if l1.reverse.take 2 = [']', ']'] then (l1.reverse.drop 2).reverse else l1

/-- The `if (cleanLink.startsWith('!')) cleanLink = cleanLink.substring(1)`
step shared by `extractDisplayName` and `extractAlias`. -/
def stripEmbedL (l : List Char) : List Char :=
  match l with
  | '!' :: rest => rest
  | _ => l

/-- `extractDisplayName` on `List Char`: clean the wiki delimiters, strip a
leading embed marker, and if a `|` occurs return the trimmed text before
the first `|` (JS `split('|')[0].trim()`), else the cleaned text. -/
def extractDisplayNameL (link : List Char) : List Char :=
  let cleanLink := stripEmbedL (cleanWikiLinkL link)
  if '|' ∈ cleanLink then jsTrimL ((jsSplitChar '|' cleanLink).headD [])
  else cleanLink

/-- `extractAlias` on `List Char`: as above, but return the trimmed second
segment of `split('|')` (JS `parts[1].trim()`) when a `|` occurs and the
split has more than one part, else `null`. -/
def extractAliasL (link : List Char) : Option (List Char) :=
  let cleanLink := stripEmbedL (cleanWikiLinkL link)
  if '|' ∈ cleanLink then
    match jsSplitChar '|' cleanLink with
    | _ :: p1 :: _ => some (jsTrimL p1)
    | _ => none
  else none

/-- Source `cleanWikiLink(link)`. -/
def cleanWikiLink (link : String) : String :=
  (cleanWikiLinkL link.toList).asString

/-- Source `extractDisplayName(link)`. -/
def extractDisplayName (link : String) : String :=
  (extractDisplayNameL link.toList).asString

/-- Source `extractAlias(link)`. -/
def extractAlias (link : String) : Option String :=
  (extractAliasL link.toList).map List.asString

/-! ## Path normalization (`normalizePath`, `removeDots`, `pathEqual`) -/

/-- Collapse runs of `/` to a single `/`. -/
def collapseSlashes : List Char → List Char
  | [] => []
  | [c] => [c]
  | c1 :: c2 :: rest =>
    if c1 = '/' ∧ c2 = '/' then collapseSlashes (c2 :: rest)
    else c1 :: collapseSlashes (c2 :: rest)

/-- Modelled from the spec: the host's (Obsidian's) `normalizePath`, which
"normalizes path separators to a single form" — separators become `/`,
runs of separators collapse, and leading/trailing separators are dropped.
The function itself is not part of this repository. -/
def normalizePath (s : String) : String :=
  (((collapseSlashes (s.toList.map (fun c => if c = '\\' then '/' else c))).dropWhile
      (· = '/')).reverse.dropWhile (· = '/')).reverse.asString

/-- JS `value.replace(/\/\.\//, '/')`: replace the leftmost occurrence of
`/./` (the regex has no `g` flag, so only the first match) with `/`. -/
def replaceFirstSlashDotSlash : List Char → List Char
  | '/' :: '.' :: '/' :: rest => '/' :: rest
  | c :: rest => c :: replaceFirstSlashDotSlash rest
  | [] => []

/-- JS `value.replace(/^\.\//, '')`: strip one leading `./`. -/
def stripLeadingDotSlash (l : List Char) : List Char :=
  match l with
  | '.' :: '/' :: rest => rest
  | _ => l

/-- Source `removeDots(value)`:
`value.replace(/\\/g, '/').replace(/^\.\//, '').replace(/\/\.\//, '/')`. -/
def removeDots (value : String) : String :=
  (replaceFirstSlashDotSlash (stripLeadingDotSlash
    (value.toList.map (fun c => if c = '\\' then '/' else c)))).asString

/-- Source `pathEqual(a, b)`. -/
def pathEqual (a b : String) : Bool :=
  if a = b then true
  else removeDots (normalizePath a) == removeDots (normalizePath b)

/-! ## Data model -/

/-- A note of the corpus as the host exposes it (`TFile`): full `path` and
bare filename `name`. -/
structure NoteFile where
  path : String
  name : String
deriving DecidableEq

/-- A `ReferenceCache` record: `link` is the host's best-effort parsed
path component ("" models an absent/empty field, which is falsy in JS)
and `original` the raw original token text ("" likewise). -/
structure RefCache where
  link : String
  original : String
deriving DecidableEq

/-- The aggregator's `IndexNode`. -/
structure IndexNode where
  count : Nat
  link : String
  originalLinks : List String
  displayName : String
deriving DecidableEq

/-- The relevant fields of the host's per-file metadata cache; `none`
models an absent `links`/`embeds` array, and an element `none` of a list
models a null reference record. -/
structure FileCache where
  links : Option (List (Option RefCache))
  embeds : Option (List (Option RefCache))
deriving DecidableEq

/-- A corpus note together with its metadata cache (`none` models
`getFileCache` returning nothing). -/
structure NoteWithCache where
  file : NoteFile
  cache : Option FileCache
deriving DecidableEq

/-- A preset (`UsedLinks`), with the source's defaults. -/
structure UsedLinks where
  name : String
  path : String
  strictLineBreaks : Bool := true
  includeEmbeds : Bool := true
  linkToFiles : Bool := true
  nonexistentOnly : Bool := false
  sortAlphabetically : Bool := false
  excludeToFilenames : List String := []
  excludeToGlobs : List String := []
  excludeFromFilenames : List String := []
  excludeFromGlobs : List String := []
deriving DecidableEq

/-- The host (Obsidian) collaborator functions consumed by the engine:
`getLinkpath`, `metadataCache.getFirstLinkpathDest`,
`metadataCache.fileToLinktext`, JS `RegExp.test` on a pattern and a
filename, and `picomatch.isMatch`. All are external to the repository
and therefore left abstract. -/
structure Host where
  getLinkpath : String → String
  resolve : String → String → Option NoteFile
  fileToLinktext : NoteFile → String → String
  regexTest : String → String → Bool
  globMatch : String → List String → Bool

/-! ## Path Filter (`isExcluded`) -/

/-- Source `isExcluded(f, filenamePatterns, globPatterns)`. -/
def isExcluded (host : Host) (globalExcludes : List String) (f : NoteFile)
    (filenamePatterns globPatterns : List String) : Bool :=
  (globalExcludes.any fun g => pathEqual g f.path)
    || (filenamePatterns.any fun p => host.regexTest p f.name)
    || host.globMatch f.path globPatterns

/-! ## Link Aggregator (`grabLinks` and the per-file loop) -/

/-- JS property lookup `uniqueLinks[k]` on the insertion-ordered record. -/
def findEntry (m : List (String × IndexNode)) (k : String) : Option IndexNode :=
  match m with
  | [] => none
  | e :: rest => if e.1 = k then some e.2 else findEntry rest k

/-- The body of the `links.forEach((l) => ...)` callback in `grabLinks`:
fold one (possibly null) reference record into the record of entries. -/
def processRef (host : Host) (ge : List String) (preset : UsedLinks) (f : NoteFile)
    (m : List (String × IndexNode)) (lopt : Option RefCache) :
    List (String × IndexNode) :=
  match lopt with
  | none => m
  | some l =>
    if l.link = "" then m
    else
      let link := host.getLinkpath l.link
      let originFile := host.resolve link f.path
      if (match originFile with
          | some tf => preset.nonexistentOnly
              || isExcluded host ge tf preset.excludeToFilenames preset.excludeToGlobs
          | none => false) then m
      else
        let origin := match originFile with
          | some tf => tf.path
          | none => link
        let normalizedOrigin := jsToLower origin
        let originalLinkText := if l.original = "" then link else l.original
        let displayName := extractDisplayName originalLinkText
        match findEntry m normalizedOrigin with
        | some _ =>
          m.map fun e =>
            if e.1 = normalizedOrigin then
              (e.1, { e.2 with
                        count := e.2.count + 1,
                        originalLinks := e.2.originalLinks ++ [originalLinkText] })
            else e
        | none =>
          let rawLink := match originFile with
            | some tf => host.fileToLinktext tf preset.path
            | none => link
          m ++ [(normalizedOrigin,
                 { count := 1,
                   link := if preset.linkToFiles then "[[" ++ rawLink ++ "]]" else rawLink,
                   originalLinks := [originalLinkText],
                   displayName := displayName })]

/-- Source `grabLinks(uniqueLinks, f, links, preset)`: the early return on
an absent/empty array is the base case of the fold. -/
def grabLinks (host : Host) (ge : List String) (preset : UsedLinks) (f : NoteFile)
    (links : List (Option RefCache)) (m : List (String × IndexNode)) :
    List (String × IndexNode) :=
  links.foldl (processRef host ge preset f) m

/-- One iteration of the `for (const f of files)` loop of
`generateAllUsedLinksIndex`: skip the output file, skip excluded sources,
skip files without a cache, then fold in direct links and (when enabled)
embeds. -/
def processFile (host : Host) (ge : List String) (preset : UsedLinks)
    (outputPath : String) (m : List (String × IndexNode)) (fc : NoteWithCache) :
    List (String × IndexNode) :=
  if fc.file.path = outputPath then m
  else if isExcluded host ge fc.file preset.excludeFromFilenames preset.excludeFromGlobs then m
  else
    match fc.cache with
    | none => m
    | some cache =>
      let m1 := match cache.links with
        | some ls => grabLinks host ge preset fc.file ls m
        | none => m
      match cache.embeds with
      | some es => if preset.includeEmbeds then grabLinks host ge preset fc.file es m1 else m1
      | none => m1

/-- The output path of a preset as `generateAllUsedLinksIndex` and
`setupCommands` compute it: append `.md` when missing, then normalize. -/
def outputPathOf (preset : UsedLinks) : String :=
  normalizePath (if jsEndsWith preset.path ".md" then preset.path else preset.path ++ ".md")

/-- `setupCommands`' global exclusion list: the output path of every
configured preset. -/
def globalExcludesOf (ps : List UsedLinks) : List String :=
  ps.map outputPathOf

/-- The whole aggregation pass of one report run: fold every corpus file
into an initially empty record. -/
def runAggregation (host : Host) (ge : List String) (preset : UsedLinks)
    (outputPath : String) (files : List NoteWithCache) :
    List (String × IndexNode) :=
  files.foldl (processFile host ge preset outputPath) []

/-- Source `getPresetByName(presets, name)` (`Array.prototype.find`). -/
def getPresetByName (presets : List UsedLinks) (name : String) : Option UsedLinks :=
  presets.find? fun r => r.name == name

/-! ## Report Renderer -/

/-- One step of the connected-terms loop: extract the alias of one stored
original link text and add it to the `Set` when it is non-empty (JS
truthiness) and differs from the entry's display name. `Set.add` keeps
the first insertion position, modelled by the membership test. -/
def ctStep (displayName : String) (acc : List String) (t : String) : List String :=
  match extractAlias t with
  | some a =>
    if a ≠ "" ∧ a ≠ displayName then (if a ∈ acc then acc else acc ++ [a]) else acc
  | none => acc

/-- The rendered connected-terms set of one entry, in `Set` insertion
order (`Array.from(connectedTerms)`). -/
def connectedTermsOf (node : IndexNode) : List String :=
  node.originalLinks.foldl (ctStep node.displayName) []

/-- One data row of the output table:
`| ${node.count} | ${node.link} | ${connectedTermsText} |\n`. -/
def renderRow (e : String × IndexNode) : String :=
  "| " ++ toString e.2.count ++ " | " ++ e.2.link ++ " | "
    ++ String.intercalate ", " (connectedTermsOf e.2) ++ " |\n"

/-- The alphabetical comparator as a total preorder on index-enumerated
entries: lower (case-folded) display name first, ties by original
position. `localeCompare` is modelled as code-point comparison. -/
def alphaRel (a b : Nat × String × IndexNode) : Prop :=
  jsToLower a.2.2.displayName < jsToLower b.2.2.displayName
    ∨ (jsToLower a.2.2.displayName = jsToLower b.2.2.displayName ∧ a.1 ≤ b.1)

/-- The frequency comparator `(a, b) => b.count - a.count` as a total
preorder on index-enumerated entries: higher count first, ties by
original position. -/
def countRel (a b : Nat × String × IndexNode) : Prop :=
  b.2.2.count < a.2.2.count ∨ (a.2.2.count = b.2.2.count ∧ a.1 ≤ b.1)

instance : DecidableRel alphaRel := fun a b => by
  unfold alphaRel; infer_instance

instance : DecidableRel countRel := fun a b => by
  unfold countRel; infer_instance

instance : IsTotal (Nat × String × IndexNode) alphaRel :=
  ⟨fun a b => by
    unfold alphaRel
    rcases lt_trichotomy (jsToLower a.2.2.displayName) (jsToLower b.2.2.displayName) with h | h | h
    · exact Or.inl (Or.inl h)
    · rcases Nat.le_total a.1 b.1 with h2 | h2
      · exact Or.inl (Or.inr ⟨h, h2⟩)
      · exact Or.inr (Or.inr ⟨h.symm, h2⟩)
    · exact Or.inr (Or.inl h)⟩

instance : IsTrans (Nat × String × IndexNode) alphaRel :=
  ⟨fun a b c hab hbc => by
    unfold alphaRel at *
    rcases hab with h1 | ⟨h1, h1i⟩ <;> rcases hbc with h2 | ⟨h2, h2i⟩
    · exact Or.inl (h1.trans h2)
    · exact Or.inl (h2 ▸ h1)
    · exact Or.inl (h1 ▸ h2)
    · exact Or.inr ⟨h1.trans h2, h1i.trans h2i⟩⟩

instance : IsTotal (Nat × String × IndexNode) countRel :=
  ⟨fun a b => by
    unfold countRel
    rcases lt_trichotomy a.2.2.count b.2.2.count with h | h | h
    · exact Or.inr (Or.inl h)
    · rcases Nat.le_total a.1 b.1 with h2 | h2
      · exact Or.inl (Or.inr ⟨h, h2⟩)
      · exact Or.inr (Or.inr ⟨h.symm, h2⟩)
    · exact Or.inl (Or.inl h)⟩

instance : IsTrans (Nat × String × IndexNode) countRel :=
  ⟨fun a b c hab hbc => by
    unfold countRel at *
    rcases hab with h1 | ⟨h1, h1i⟩ <;> rcases hbc with h2 | ⟨h2, h2i⟩
    · exact Or.inl (h2.trans h1)
    · exact Or.inl (h2 ▸ h1)
    · exact Or.inl (h1 ▸ h2)
    · exact Or.inr ⟨h1.trans h2, h1i.trans h2i⟩⟩

/-- `Object.entries(uniqueLinks).sort(comparator)` (a stable sort),
modelled as the sort of the index-enumerated entry list by the
lexicographic (comparator key, original index) total order; the original
indices are kept alongside the entries. -/
def sortEntriesIdx (preset : UsedLinks) (m : List (String × IndexNode)) :
    List (Nat × String × IndexNode) :=
  if preset.sortAlphabetically then List.insertionSort alphaRel m.enum
  else List.insertionSort countRel m.enum

/-- The sorted entry list handed to the row serializer. -/
def sortedEntries (preset : UsedLinks) (m : List (String × IndexNode)) :
    List (String × IndexNode) :=
  (sortEntriesIdx preset m).map Prod.snd

/-- The data rows of the report, in rendered order. -/
def renderRows (preset : UsedLinks) (m : List (String × IndexNode)) : List String :=
  (sortedEntries preset m).map renderRow

/-- The full output text: fixed header and separator rows, then the data
rows. -/
def renderContent (preset : UsedLinks) (m : List (String × IndexNode)) : String :=
  "| Count | Link | Connected Terms |\n" ++ "|-------|------|----------------|\n"
    ++ String.join (renderRows preset m)

/-- The observable outcome of one command invocation: either an abort with
a user-visible notice and no file write, or a wholesale write of the
rendered content at the output path. -/
inductive RunResult where
  | aborted (notice : String)
  | wrote (path : String) (content : String)
deriving DecidableEq

/-- Source `generateAllUsedLinksIndex(preset)`: abort with a notice when
the preset lookup failed, otherwise aggregate the corpus and write the
rendered table at the preset's output path. -/
def generateAllUsedLinksIndex (host : Host) (ge : List String)
    (preset? : Option UsedLinks) (files : List NoteWithCache) : RunResult :=
  match preset? with
  | none => RunResult.aborted "Preset not found. Try reloading Obsidian."
  | some preset =>
    let outputPath := outputPathOf preset
    RunResult.wrote outputPath
      (renderContent preset (runAggregation host ge preset outputPath files))

/-! ## Specification-side description of the admitted occurrences -/

/-- The identity key of one reference occurrence when the aggregator
admits it, `none` when the occurrence is skipped or discarded: the
branch structure mirrors `grabLinks`. -/
def admittedOfRef (host : Host) (ge : List String) (preset : UsedLinks)
    (f : NoteFile) (lopt : Option RefCache) : Option String :=
  match lopt with
  | none => none
  | some l =>
    if l.link = "" then none
    else
      let link := host.getLinkpath l.link
      match host.resolve link f.path with
      | some tf =>
        if preset.nonexistentOnly
            || isExcluded host ge tf preset.excludeToFilenames preset.excludeToGlobs then none
        else some (jsToLower tf.path)
      | none => some (jsToLower link)

/-- The identity keys of the admitted occurrences contributed by one
corpus file, in processing order. -/
def admittedOfFile (host : Host) (ge : List String) (preset : UsedLinks)
    (outputPath : String) (fc : NoteWithCache) : List String :=
  if fc.file.path = outputPath then []
  else if isExcluded host ge fc.file preset.excludeFromFilenames preset.excludeFromGlobs then []
  else
    match fc.cache with
    | none => []
    | some cache =>
      (match cache.links with
        | some ls => ls.filterMap (admittedOfRef host ge preset fc.file)
        | none => [])
      ++ (match cache.embeds with
        | some es =>
          if preset.includeEmbeds then es.filterMap (admittedOfRef host ge preset fc.file)
          else []
        | none => [])

/-- All admitted identity keys of one report run, in processing order. -/
def admittedKeys (host : Host) (ge : List String) (preset : UsedLinks)
    (outputPath : String) (files : List NoteWithCache) : List String :=
  files.foldl (fun ks fc => ks ++ admittedOfFile host ge preset outputPath fc) []

/-- Number of occurrences of a key in a list of keys. -/
def countKey (k : String) : List String → Nat
  | [] => 0
  | x :: xs => (if x = k then 1 else 0) + countKey k xs

/-- The keys of the entry record, in insertion order. -/
def keysOf (m : List (String × IndexNode)) : List String :=
  m.map Prod.fst

/-! ## Lemmas about the entry record -/

theorem findEntry_eq_none {m : List (String × IndexNode)} {k : String} :
    findEntry m k = none ↔ k ∉ keysOf m := by
  induction m with
  | nil => simp [findEntry, keysOf]
  | cons e rest ih =>
    by_cases h : e.1 = k
    · simp [findEntry, h, keysOf]
    · simp [findEntry, h, keysOf] at ih ⊢
      exact ⟨fun hn => ⟨fun he => h he.symm, (ih.mp hn)⟩, fun hn => ih.mpr hn.2⟩

theorem mem_keysOf_iff_findEntry {m : List (String × IndexNode)} {k : String} :
    k ∈ keysOf m ↔ ∃ n, findEntry m k = some n := by
  constructor
  · intro h
    cases hf : findEntry m k with
    | none => exact absurd (findEntry_eq_none.mp hf) (not_not.mpr h)
    | some n => exact ⟨n, rfl⟩
  · rintro ⟨n, hn⟩
    by_contra hk
    rw [findEntry_eq_none.mpr hk] at hn
    cases hn

theorem keysOf_map_update {m : List (String × IndexNode)} {k : String}
    {g : IndexNode → IndexNode} :
    keysOf (m.map fun e => if e.1 = k then (e.1, g e.2) else e) = keysOf m := by
  induction m with
  | nil => rfl
  | cons e rest ih =>
    by_cases h : e.1 = k <;> simp [keysOf, h] at ih ⊢ <;> exact ih

theorem findEntry_map_update {m : List (String × IndexNode)} {k k' : String}
    {g : IndexNode → IndexNode} :
    findEntry (m.map fun e => if e.1 = k then (e.1, g e.2) else e) k'
      = if k' = k then (findEntry m k').map g else findEntry m k' := by
  induction m with
  | nil => by_cases h : k' = k <;> simp [findEntry, h]
  | cons e rest ih =>
    by_cases hk : k' = k
    · subst hk
      by_cases he : e.1 = k'
      · simp [findEntry, he]
      · simp [findEntry, he] at ih ⊢
        exact ih
    · by_cases he : e.1 = k
      · have hek : ¬ e.1 = k' := fun hc => hk (hc.symm.trans he)
        have hk2 : ¬ k = k' := fun hc => hk hc.symm
        simp [findEntry, he, hek, hk, hk2] at ih ⊢
        exact ih
      · by_cases hek : e.1 = k'
        · simp [findEntry, he, hek, hk]
        · simp [findEntry, he, hek, hk] at ih ⊢
          exact ih

theorem findEntry_append {m m' : List (String × IndexNode)} {k : String} :
    findEntry (m ++ m') k
      = match findEntry m k with
        | some n => some n
        | none => findEntry m' k := by
  induction m with
  | nil => simp [findEntry]
  | cons e rest ih =>
    by_cases h : e.1 = k
    · simp [findEntry, h]
    · simp [findEntry, h]
      exact ih

theorem countKey_append (k : String) (l l' : List String) :
    countKey k (l ++ l') = countKey k l + countKey k l' := by
  induction l with
  | nil => simp [countKey]
  | cons x xs ih => simp [countKey, ih]; omega

theorem countKey_eq_zero {k : String} {l : List String} :
    countKey k l = 0 ↔ k ∉ l := by
  induction l with
  | nil => simp [countKey]
  | cons x xs ih =>
    by_cases h : x = k
    · simp [countKey, h]
    · simp only [countKey, if_neg h, Nat.zero_add, ih, List.mem_cons, not_or]
      exact ⟨fun hn => ⟨fun hkx => h hkx.symm, hn⟩, fun hn => hn.2⟩

/-- The aggregation invariant: the record `m` has pairwise-distinct keys,
its key set is the set of admitted identity keys `ks`, and every entry's
count is the multiplicity of its key in `ks`. -/
def Agg (m : List (String × IndexNode)) (ks : List String) : Prop :=
  (keysOf m).Nodup
    ∧ (∀ k, k ∈ keysOf m ↔ k ∈ ks)
    ∧ (∀ k n, findEntry m k = some n → n.count = countKey k ks)

theorem countKey_singleton_self (k : String) : countKey k [k] = 1 := by
  simp [countKey]

theorem countKey_singleton_ne {k k' : String} (h : k' ≠ k) : countKey k' [k] = 0 := by
  have hn : ¬ k = k' := fun hc => h hc.symm
  simp [countKey, hn]

/-- Folding one admitted occurrence with key `k` into the record preserves
the aggregation invariant, extending the admitted-key list by `k`. -/
theorem bump_agg {m : List (String × IndexNode)} {ks : List String} (k : String)
    (g : IndexNode → IndexNode) (hg : ∀ n, (g n).count = n.count + 1)
    (new : IndexNode) (hnew : new.count = 1) (h : Agg m ks) :
    Agg (match findEntry m k with
         | some _ => m.map fun e => if e.1 = k then (e.1, g e.2) else e
         | none => m ++ [(k, new)]) (ks ++ [k]) := by
  obtain ⟨hnd, hmem, hcnt⟩ := h
  cases hfe : findEntry m k with
  | none =>
    have hk : k ∉ keysOf m := findEntry_eq_none.mp hfe
    have hks : k ∉ ks := fun hx => hk ((hmem k).mpr hx)
    have hkeys : keysOf (m ++ [(k, new)]) = keysOf m ++ [k] := by simp [keysOf]
    refine ⟨?_, ?_, ?_⟩
    · rw [hkeys, List.nodup_append]
      exact ⟨hnd, List.nodup_singleton k, by
        intro a ha hb
        rw [List.mem_singleton] at hb
        exact hk (hb ▸ ha)⟩
    · intro k'
      rw [hkeys]
      simp only [List.mem_append, List.mem_singleton, hmem k']
    · intro k' n hf
      rw [findEntry_append] at hf
      cases hfm : findEntry m k' with
      | some n0 =>
        rw [hfm] at hf
        cases hf
        have hk' : k' ∈ keysOf m := mem_keysOf_iff_findEntry.mpr ⟨n, hfm⟩
        have hne : k' ≠ k := fun hc => hk (hc ▸ hk')
        rw [countKey_append, countKey_singleton_ne hne]
        simpa using hcnt k' n hfm
      | none =>
        rw [hfm] at hf
        simp only [findEntry] at hf
        by_cases hkk : k = k'
        · subst hkk
          simp at hf
          rw [countKey_append, countKey_singleton_self, countKey_eq_zero.mpr hks, ← hf, hnew]
        · simp [hkk] at hf
  | some n0 =>
    have hk : k ∈ keysOf m := mem_keysOf_iff_findEntry.mpr ⟨n0, hfe⟩
    refine ⟨?_, ?_, ?_⟩
    · rw [keysOf_map_update]; exact hnd
    · intro k'
      rw [keysOf_map_update]
      constructor
      · intro hm; exact List.mem_append_left _ ((hmem k').mp hm)
      · intro hm
        rcases List.mem_append.mp hm with hm | hm
        · exact (hmem k').mpr hm
        · rw [List.mem_singleton] at hm
          exact hm ▸ hk
    · intro k' n hf
      rw [findEntry_map_update] at hf
      by_cases hkk : k' = k
      · subst hkk
        rw [if_pos rfl, hfe] at hf
        simp at hf
        rw [countKey_append, countKey_singleton_self, ← hf, hg]
        simpa using hcnt k' n0 hfe
      · rw [if_neg hkk] at hf
        rw [countKey_append, countKey_singleton_ne hkk, Nat.add_zero]
        exact hcnt k' n hf

/-- Processing one reference record preserves the aggregation invariant,
extending the admitted keys by the occurrence's key when it is admitted. -/
theorem processRef_agg (host : Host) (ge : List String) (preset : UsedLinks)
    (f : NoteFile) {m : List (String × IndexNode)} {ks : List String}
    (lopt : Option RefCache) (h : Agg m ks) :
    Agg (processRef host ge preset f m lopt)
        (ks ++ (admittedOfRef host ge preset f lopt).toList) := by
  cases lopt with
  | none => simpa [processRef, admittedOfRef] using h
  | some l =>
    by_cases hl : l.link = ""
    · simpa [processRef, admittedOfRef, hl] using h
    · cases hres : host.resolve (host.getLinkpath l.link) f.path with
      | some tf =>
        by_cases hdisc : (preset.nonexistentOnly
            || isExcluded host ge tf preset.excludeToFilenames preset.excludeToGlobs) = true
        · simpa [processRef, admittedOfRef, hl, hres, hdisc] using h
        · simp only [processRef, admittedOfRef, hl, hres, if_neg hdisc, Bool.not_eq_true,
            Option.toList_some, if_false]
          refine bump_agg _
            (fun n => { n with
                          count := n.count + 1,
                          originalLinks := n.originalLinks
                            ++ [if l.original = "" then host.getLinkpath l.link
                                else l.original] }) ?_ _ ?_ h
          · intro n; rfl
          · rfl
      | none =>
        simp only [processRef, admittedOfRef, hl, hres, Option.toList_some, if_neg hl,
          Bool.false_eq_true, if_false]
        refine bump_agg _
          (fun n => { n with
                        count := n.count + 1,
                        originalLinks := n.originalLinks
                          ++ [if l.original = "" then host.getLinkpath l.link
                              else l.original] }) ?_ _ ?_ h
        · intro n; rfl
        · rfl

/-- Folding a whole reference list preserves the aggregation invariant. -/
theorem grabLinks_agg (host : Host) (ge : List String) (preset : UsedLinks)
    (f : NoteFile) (ls : List (Option RefCache)) :
    ∀ {m : List (String × IndexNode)} {ks : List String}, Agg m ks →
      Agg (grabLinks host ge preset f ls m)
          (ks ++ ls.filterMap (admittedOfRef host ge preset f)) := by
  induction ls with
  | nil => intro m ks h; simpa [grabLinks] using h
  | cons l ls ih =>
    intro m ks h
    have h1 := processRef_agg host ge preset f l h
    have h2 := ih h1
    rw [grabLinks, List.foldl_cons, List.filterMap_cons]
    cases ho : admittedOfRef host ge preset f l with
    | none =>
      rw [ho, Option.toList_none, List.append_nil] at h1
      simpa [grabLinks, ho] using ih h1
    | some b =>
      rw [ho, Option.toList_some] at h1
      have h3 := ih h1
      rw [grabLinks] at h3
      simpa [List.append_assoc] using h3

/-- Processing one corpus file preserves the aggregation invariant. -/
theorem processFile_agg (host : Host) (ge : List String) (preset : UsedLinks)
    (outputPath : String) (fc : NoteWithCache)
    {m : List (String × IndexNode)} {ks : List String} (h : Agg m ks) :
    Agg (processFile host ge preset outputPath m fc)
        (ks ++ admittedOfFile host ge preset outputPath fc) := by
  by_cases hout : fc.file.path = outputPath
  · simpa [processFile, admittedOfFile, hout] using h
  · by_cases hexc : isExcluded host ge fc.file preset.excludeFromFilenames
        preset.excludeFromGlobs = true
    · simpa [processFile, admittedOfFile, hout, hexc] using h
    · cases hc : fc.cache with
      | none => simpa [processFile, admittedOfFile, hout, hexc, hc] using h
      | some cache =>
        have step1 :
            Agg (match cache.links with
                  | some ls => grabLinks host ge preset fc.file ls m
                  | none => m)
              (ks ++ (match cache.links with
                  | some ls => ls.filterMap (admittedOfRef host ge preset fc.file)
                  | none => [])) := by
          cases hls : cache.links with
          | none => simpa using h
          | some ls => exact grabLinks_agg host ge preset fc.file ls h
        have step2 :
            Agg (match cache.embeds with
                  | some es =>
                    if preset.includeEmbeds then
                      grabLinks host ge preset fc.file es
                        (match cache.links with
                          | some ls => grabLinks host ge preset fc.file ls m
                          | none => m)
                    else (match cache.links with
                          | some ls => grabLinks host ge preset fc.file ls m
                          | none => m)
                  | none => (match cache.links with
                          | some ls => grabLinks host ge preset fc.file ls m
                          | none => m))
              ((ks ++ (match cache.links with
                  | some ls => ls.filterMap (admittedOfRef host ge preset fc.file)
                  | none => []))
                ++ (match cache.embeds with
                  | some es =>
                    if preset.includeEmbeds then
                      es.filterMap (admittedOfRef host ge preset fc.file)
                    else []
                  | none => [])) := by
          cases hes : cache.embeds with
          | none => simpa using step1
          | some es =>
            by_cases hinc : preset.includeEmbeds = true
            · simp only [hinc, if_true]
              exact grabLinks_agg host ge preset fc.file es step1
            · simp only [Bool.not_eq_true] at hinc
              simpa [hinc] using step1
        simp only [processFile, admittedOfFile, hout, hexc, hc, if_neg hout, if_false]
        simpa [List.append_assoc] using step2

/-- The aggregation invariant holds of the completed run. -/
theorem runAggregation_agg (host : Host) (ge : List String) (preset : UsedLinks)
    (outputPath : String) (files : List NoteWithCache) :
    Agg (runAggregation host ge preset outputPath files)
        (admittedKeys host ge preset outputPath files) := by
  have base : Agg [] [] := by
    refine ⟨List.nodup_nil, ?_, ?_⟩
    · intro k; simp [keysOf]
    · intro k n h; cases h
  have gen : ∀ (fs : List NoteWithCache) (m : List (String × IndexNode)) (ks : List String),
      Agg m ks →
        Agg (fs.foldl (processFile host ge preset outputPath) m)
            (fs.foldl (fun ks fc => ks ++ admittedOfFile host ge preset outputPath fc) ks) := by
    intro fs
    induction fs with
    | nil => intro m ks h; simpa using h
    | cons fc fs ih =>
      intro m ks h
      simpa using ih _ _ (processFile_agg host ge preset outputPath fc h)
  exact gen files [] [] base

/-! ## Claim C1 -/

/-- C1: after one report run, the aggregation record contains exactly one
entry per distinct case-insensitive resolved identity among the admitted
references — the identity key being the resolved note path when resolved
and the raw link path otherwise, lower-cased (`admittedOfRef`) — and each
entry's count equals the number of admitted occurrences that mapped to
that identity. Since the keys are the lower-cased identities, occurrences
differing only in case share a key and never create extra entries. -/
theorem aggregation_one_entry_per_identity (host : Host) (ge : List String)
    (preset : UsedLinks) (files : List NoteWithCache) :
    (keysOf (runAggregation host ge preset (outputPathOf preset) files)).Nodup
      ∧ (∀ k, k ∈ keysOf (runAggregation host ge preset (outputPathOf preset) files)
          ↔ k ∈ admittedKeys host ge preset (outputPathOf preset) files)
      ∧ (∀ k n, findEntry (runAggregation host ge preset (outputPathOf preset) files) k
            = some n
          → n.count = countKey k (admittedKeys host ge preset (outputPathOf preset) files)) :=
  runAggregation_agg host ge preset (outputPathOf preset) files

/-! ## Claim C2 -/

/-- The concrete host of the C2 scenario corpus: `A`, `B`, `C` resolve to
the corresponding notes, `X` does not exist. -/
def hostScen : Host :=
  { getLinkpath := fun s => s
    resolve := fun link _ =>
      if link = "B" then some ⟨"B.md", "B.md"⟩
      else if link = "C" then some ⟨"C.md", "C.md"⟩
      else if link = "A" then some ⟨"A.md", "A.md"⟩
      else none
    fileToLinktext := fun f _ => f.path
    regexTest := fun _ _ => false
    globMatch := fun _ _ => false }

/-- The C2 scenario preset: default options except `nonexistentOnly`. -/
def presetScen : UsedLinks :=
  { name := "p", path := "used_links", nonexistentOnly := true }

/-- The C2 scenario corpus: A links [[B]], [[C]]; B links [[C]]; C links
[[B]], [[X]] with X absent. -/
def filesScen : List NoteWithCache :=
  [ ⟨⟨"A.md", "A.md"⟩, some ⟨some [some ⟨"B", "[[B]]"⟩, some ⟨"C", "[[C]]"⟩], none⟩⟩,
    ⟨⟨"B.md", "B.md"⟩, some ⟨some [some ⟨"C", "[[C]]"⟩], none⟩⟩,
    ⟨⟨"C.md", "C.md"⟩, some ⟨some [some ⟨"B", "[[B]]"⟩, some ⟨"X", "[[X]]"⟩], none⟩⟩ ]

/-- C2: a reference occurrence that resolves to an existing note is
discarded — the record is returned unchanged — whenever `nonexistentOnly`
is enabled or the Path Filter excludes the resolved note under the
preset's to-filters; and on the corpus {A links [[B]], [[C]]; B links
[[C]]; C links [[B]], [[X]] with X absent} a run with
`nonexistentOnly = true` yields exactly one entry, X, with count 1. -/
theorem resolved_filtered_discarded (host : Host) (ge : List String)
    (preset : UsedLinks) (f : NoteFile) (m : List (String × IndexNode))
    (l : RefCache) (tf : NoteFile)
    (hres : host.resolve (host.getLinkpath l.link) f.path = some tf)
    (hcond : (preset.nonexistentOnly
        || isExcluded host ge tf preset.excludeToFilenames preset.excludeToGlobs) = true) :
    processRef host ge preset f m (some l) = m
      ∧ runAggregation hostScen (globalExcludesOf [presetScen]) presetScen
          (outputPathOf presetScen) filesScen
        = [("x", { count := 1, link := "[[X]]", originalLinks := ["[[X]]"],
                   displayName := "X" })] := by
  constructor
  · by_cases hl : l.link = ""
    · simp [processRef, hl]
    · simp [processRef, hl, hres, hcond]
  · decide

/-- Witness for C2 at a concrete input: the resolved target `B.md` exists
and `nonexistentOnly` is on, so the occurrence changes nothing. -/
theorem resolved_filtered_discarded_witness :
    processRef hostScen (globalExcludesOf [presetScen]) presetScen ⟨"A.md", "A.md"⟩
        [] (some ⟨"B", "[[B]]"⟩)
      = [] :=
  (resolved_filtered_discarded hostScen (globalExcludesOf [presetScen]) presetScen
    ⟨"A.md", "A.md"⟩ [] ⟨"B", "[[B]]"⟩ ⟨"B.md", "B.md"⟩ (by decide) (by decide)).1

/-! ## Claim C9 -/

/-- C9: when the requested preset is not found, the invocation aborts with
a user-visible notice before any aggregation or file output: the run's
observable outcome is `aborted` — no `wrote` outcome and hence no output
file and no modified state. -/
theorem missing_preset_aborts (host : Host) (ge : List String)
    (ps : List UsedLinks) (name : String) (files : List NoteWithCache)
    (h : getPresetByName ps name = none) :
    generateAllUsedLinksIndex host ge (getPresetByName ps name) files
      = RunResult.aborted "Preset not found. Try reloading Obsidian." := by
  rw [h]
  rfl

/-- Witness for C9: an empty preset list has no preset named `p`. -/
theorem missing_preset_aborts_witness :
    generateAllUsedLinksIndex hostScen [] (getPresetByName [] "p") []
      = RunResult.aborted "Preset not found. Try reloading Obsidian." :=
  missing_preset_aborts hostScen [] [] "p" [] (by decide)

/-! ## Claim C10 -/

/-- C10: a null reference record, or one whose raw link text is absent or
empty, leaves the entry record completely unchanged, and processing of
the remaining references continues: folding the reference list with such
an occurrence spliced in equals folding the list without it. -/
theorem null_or_empty_ref_ignored (host : Host) (ge : List String)
    (preset : UsedLinks) (f : NoteFile) (m : List (String × IndexNode))
    (pre post : List (Option RefCache)) (lopt : Option RefCache)
    (h : lopt = none ∨ ∃ l, lopt = some l ∧ l.link = "") :
    processRef host ge preset f m lopt = m
      ∧ grabLinks host ge preset f (pre ++ lopt :: post) m
        = grabLinks host ge preset f (pre ++ post) m := by
  have hid : ∀ m' : List (String × IndexNode), processRef host ge preset f m' lopt = m' := by
    intro m'
    rcases h with rfl | ⟨l, rfl, hl⟩
    · rfl
    · simp [processRef, hl]
  refine ⟨hid m, ?_⟩
  rw [grabLinks, grabLinks, List.foldl_append, List.foldl_append, List.foldl_cons, hid]

/-- Witness for C10: an empty-link record between two ordinary references
changes nothing about the resulting record. -/
theorem null_or_empty_ref_ignored_witness :
    processRef hostScen [] presetScen ⟨"C.md", "C.md"⟩ [] (some ⟨"", "[[|x]]"⟩) = []
      ∧ grabLinks hostScen [] presetScen ⟨"C.md", "C.md"⟩
          ([some ⟨"X", "[[X]]"⟩] ++ some ⟨"", "[[|x]]"⟩ :: [some ⟨"X", "[[X]]"⟩]) []
        = grabLinks hostScen [] presetScen ⟨"C.md", "C.md"⟩
            ([some ⟨"X", "[[X]]"⟩] ++ [some ⟨"X", "[[X]]"⟩]) [] :=
  null_or_empty_ref_ignored hostScen [] presetScen ⟨"C.md", "C.md"⟩ []
    [some ⟨"X", "[[X]]"⟩] [some ⟨"X", "[[X]]"⟩] (some ⟨"", "[[|x]]"⟩)
    (Or.inr ⟨⟨"", "[[|x]]"⟩, rfl, rfl⟩)

/-! ## Claim C3 -/

/-- Membership in the admitted keys of a run comes from some corpus file. -/
theorem mem_admittedKeys {host : Host} {ge : List String} {preset : UsedLinks}
    {outputPath : String} {files : List NoteWithCache} {k : String} :
    k ∈ admittedKeys host ge preset outputPath files
      ↔ ∃ fc ∈ files, k ∈ admittedOfFile host ge preset outputPath fc := by
  have gen : ∀ (fs : List NoteWithCache) (ks : List String),
      k ∈ fs.foldl (fun a fc => a ++ admittedOfFile host ge preset outputPath fc) ks
        ↔ k ∈ ks ∨ ∃ fc ∈ fs, k ∈ admittedOfFile host ge preset outputPath fc := by
    intro fs
    induction fs with
    | nil => intro ks; simp
    | cons fc fs ih =>
      intro ks
      rw [List.foldl_cons, ih]
      simp only [List.mem_append, List.mem_cons]
      constructor
      · rintro ((hk | hk) | ⟨fc', hfc', hk⟩)
        · exact Or.inl hk
        · exact Or.inr ⟨fc, Or.inl rfl, hk⟩
        · exact Or.inr ⟨fc', Or.inr hfc', hk⟩
      · rintro (hk | ⟨fc', (rfl | hfc'), hk⟩)
        · exact Or.inl (Or.inl hk)
        · exact Or.inl (Or.inr hk)
        · exact Or.inr ⟨fc', hfc', hk⟩
  rw [admittedKeys, gen]
  simp

/-- Every admitted key of a file is the admitted key of one of its
reference occurrences. -/
theorem mem_admittedOfFile {host : Host} {ge : List String} {preset : UsedLinks}
    {outputPath : String} {fc : NoteWithCache} {k : String}
    (h : k ∈ admittedOfFile host ge preset outputPath fc) :
    ∃ lopt, admittedOfRef host ge preset fc.file lopt = some k := by
  rw [admittedOfFile] at h
  by_cases hout : fc.file.path = outputPath
  · simp [hout] at h
  · rw [if_neg hout] at h
    by_cases hexc : isExcluded host ge fc.file preset.excludeFromFilenames
        preset.excludeFromGlobs = true
    · simp [hexc] at h
    · rw [if_neg hexc] at h
      cases hc : fc.cache with
      | none => rw [hc] at h; cases h
      | some cache =>
        rw [hc] at h
        rcases List.mem_append.mp h with h | h
        · cases hls : cache.links with
          | none => rw [hls] at h; cases h
          | some ls =>
            rw [hls] at h
            obtain ⟨lopt, _, hl⟩ := List.mem_filterMap.mp h
            exact ⟨lopt, hl⟩
        · cases hes : cache.embeds with
          | none => rw [hes] at h; cases h
          | some es =>
            rw [hes] at h
            by_cases hinc : preset.includeEmbeds = true
            · simp only [hinc, if_true] at h
              obtain ⟨lopt, _, hl⟩ := List.mem_filterMap.mp h
              exact ⟨lopt, hl⟩
            · simp only [hinc, if_false] at h; cases h

/-- An admitted occurrence is either a resolved reference that passed the
target filters, with the resolved path (lower-cased) as key, or an
unresolved reference with the raw link path (lower-cased) as key. -/
theorem admittedOfRef_cases {host : Host} {ge : List String} {preset : UsedLinks}
    {f : NoteFile} {lopt : Option RefCache} {k : String}
    (h : admittedOfRef host ge preset f lopt = some k) :
    (∃ l tf, lopt = some l
        ∧ host.resolve (host.getLinkpath l.link) f.path = some tf
        ∧ (preset.nonexistentOnly
            || isExcluded host ge tf preset.excludeToFilenames preset.excludeToGlobs) = false
        ∧ k = jsToLower tf.path)
      ∨ (∃ l, lopt = some l
        ∧ host.resolve (host.getLinkpath l.link) f.path = none
        ∧ k = jsToLower (host.getLinkpath l.link)) := by
  cases lopt with
  | none => cases h
  | some l =>
    by_cases hl : l.link = ""
    · simp [admittedOfRef, hl] at h
    · simp only [admittedOfRef, if_neg hl] at h
      cases hres : host.resolve (host.getLinkpath l.link) f.path with
      | some tf =>
        simp only [hres] at h
        by_cases hdisc : (preset.nonexistentOnly
            || isExcluded host ge tf preset.excludeToFilenames preset.excludeToGlobs) = true
        · simp only [hdisc, if_true] at h
          cases h
        · simp only [hdisc, if_false] at h
          injection h with h
          exact Or.inl ⟨l, tf, rfl, hres, Bool.not_eq_true _ ▸ hdisc, h.symm⟩
      | none =>
        simp only [hres] at h
        injection h with h
        exact Or.inr ⟨l, rfl, hres, h.symm⟩

/-- A note path-equal to the output path of any configured preset is
excluded by `isExcluded` through the global exclusion list. -/
theorem isExcluded_of_globalExcludes (host : Host) {ps : List UsedLinks}
    {p : UsedLinks} (hp : p ∈ ps) {f : NoteFile}
    (h : pathEqual (outputPathOf p) f.path = true)
    (fps gps : List String) :
    isExcluded host (globalExcludesOf ps) f fps gps = true := by
  have hmem : outputPathOf p ∈ globalExcludesOf ps := List.mem_map_of_mem _ hp
  have hany : (globalExcludesOf ps).any (fun g => pathEqual g f.path) = true :=
    List.any_eq_true.mpr ⟨outputPathOf p, hmem, h⟩
  simp [isExcluded, hany]

/-- C3: (1) a corpus file whose path equals the current preset's output
path (normalized, `.md` appended when missing) contributes nothing — the
per-file step returns the record unchanged; (2) likewise a file path-equal
to the output path of any configured preset, via the global exclusion
list; (3) a reference resolving to a note path-equal to any configured
preset's output path is never counted as a target; and (4) under the
stated adequacy of the host resolver (resolved targets are corpus notes,
corpus paths are case-insensitively distinct, and an unresolved link text
never case-insensitively equals a corpus note's path), no entry of the
final record is keyed by such a note's identity. -/
theorem output_note_never_counted (host : Host) (ps : List UsedLinks)
    (preset : UsedLinks) (files : List NoteWithCache)
    (Hmem : ∀ link src tf, host.resolve link src = some tf
      → tf ∈ files.map NoteWithCache.file)
    (Hdist : ∀ f g : NoteFile, f ∈ files.map NoteWithCache.file
      → g ∈ files.map NoteWithCache.file
      → jsToLower f.path = jsToLower g.path → f.path = g.path)
    (Hres : ∀ link src, host.resolve link src = none
      → ∀ g : NoteFile, g ∈ files.map NoteWithCache.file
      → jsToLower link ≠ jsToLower g.path) :
    (∀ fc : NoteWithCache, fc.file.path = outputPathOf preset
      → ∀ m, processFile host (globalExcludesOf ps) preset (outputPathOf preset) m fc = m)
    ∧ (∀ fc : NoteWithCache, ∀ p ∈ ps, pathEqual (outputPathOf p) fc.file.path = true
      → ∀ m, processFile host (globalExcludesOf ps) preset (outputPathOf preset) m fc = m)
    ∧ (∀ (f : NoteFile) (l : RefCache) (tf : NoteFile),
        host.resolve (host.getLinkpath l.link) f.path = some tf
        → ∀ p ∈ ps, pathEqual (outputPathOf p) tf.path = true
        → ∀ m, processRef host (globalExcludesOf ps) preset f m (some l) = m)
    ∧ (∀ p ∈ ps, ∀ note ∈ files.map NoteWithCache.file,
        pathEqual (outputPathOf p) note.path = true
        → jsToLower note.path ∉ keysOf (runAggregation host (globalExcludesOf ps) preset
            (outputPathOf preset) files)) := by
  refine ⟨?_, ?_, ?_, ?_⟩
  · intro fc hout m
    simp [processFile, hout]
  · intro fc p hp' hpe m
    by_cases hout : fc.file.path = outputPathOf preset
    · simp [processFile, hout]
    · have hexc := isExcluded_of_globalExcludes host hp' hpe
        preset.excludeFromFilenames preset.excludeFromGlobs
      simp [processFile, hout, hexc]
  · intro f l tf hres p hp' hpe m
    by_cases hl : l.link = ""
    · simp [processRef, hl]
    · have hexc := isExcluded_of_globalExcludes host hp' hpe
        preset.excludeToFilenames preset.excludeToGlobs
      simp [processRef, hl, hres, hexc]
  · intro p hp' note hnote hpe hmemk
    obtain ⟨-, hmemiff, -⟩ := runAggregation_agg host (globalExcludesOf ps) preset
      (outputPathOf preset) files
    have hk := (hmemiff _).mp hmemk
    obtain ⟨fc, hfc, hkf⟩ := mem_admittedKeys.mp hk
    obtain ⟨lopt, href⟩ := mem_admittedOfFile hkf
    rcases admittedOfRef_cases href with
      ⟨l, tf, rfl, hres, hnotdisc, hkey⟩ | ⟨l, rfl, hres, hkey⟩
    · have htf : tf ∈ files.map NoteWithCache.file := Hmem _ _ _ hres
      have heq : tf.path = note.path := Hdist tf note htf hnote hkey.symm
      have hpe2 : pathEqual (outputPathOf p) tf.path = true := heq ▸ hpe
      have hexc := isExcluded_of_globalExcludes host hp' hpe2
        preset.excludeToFilenames preset.excludeToGlobs
      rw [Bool.or_eq_false_iff] at hnotdisc
      rw [hnotdisc.2] at hexc
      cases hexc
    · exact Hres _ _ hres note hnote hkey.symm

/-- A one-preset configuration whose output note exists in the corpus and
itself contains an outbound link, used to witness the self-exclusion
claim. -/
def presetOut : UsedLinks :=
  { name := "p", path := "out" }

/-- The corpus of the self-exclusion witness: just the output note
`out.md`, which links to `A`. -/
def filesOut : List NoteWithCache :=
  [ ⟨⟨"out.md", "out.md"⟩, some ⟨some [some ⟨"A", "[[A]]"⟩], none⟩⟩ ]

/-- The host of the self-exclusion witness: a link resolves exactly when
it case-insensitively equals the output note's path. -/
def hostOut : Host :=
  { getLinkpath := fun s => s
    resolve := fun link _ =>
      if jsToLower link = "out.md" then some ⟨"out.md", "out.md"⟩ else none
    fileToLinktext := fun f _ => f.path
    regexTest := fun _ _ => false
    globMatch := fun _ _ => false }

/-- Witness for C3: on the concrete corpus whose single note is the
configured output note, that note contributes nothing and its identity
keys no entry of the final record. -/
theorem output_note_never_counted_witness :
    processFile hostOut (globalExcludesOf [presetOut]) presetOut (outputPathOf presetOut)
        [] ⟨⟨"out.md", "out.md"⟩, some ⟨some [some ⟨"A", "[[A]]"⟩], none⟩⟩
      = []
    ∧ jsToLower "out.md" ∉ keysOf (runAggregation hostOut (globalExcludesOf [presetOut])
        presetOut (outputPathOf presetOut) filesOut) := by
  have Hmem : ∀ link src tf, hostOut.resolve link src = some tf
      → tf ∈ filesOut.map NoteWithCache.file := by
    intro link src tf h
    by_cases hc : jsToLower link = "out.md"
    · simp only [hostOut, hc, if_true] at h
      cases h
      simp [filesOut]
    · simp [hostOut, hc] at h
  have Hdist : ∀ f g : NoteFile, f ∈ filesOut.map NoteWithCache.file
      → g ∈ filesOut.map NoteWithCache.file
      → jsToLower f.path = jsToLower g.path → f.path = g.path := by
    intro f g hf hg _
    simp [filesOut] at hf hg
    rw [hf, hg]
  have Hres : ∀ link src, hostOut.resolve link src = none
      → ∀ g : NoteFile, g ∈ filesOut.map NoteWithCache.file
      → jsToLower link ≠ jsToLower g.path := by
    intro link src h g hg
    simp [filesOut] at hg
    rw [hg]
    intro hlow
    have hl2 : jsToLower link = "out.md" := by rw [hlow]; decide
    simp [hostOut, hl2] at h
  have h := output_note_never_counted hostOut [presetOut] presetOut filesOut Hmem Hdist Hres
  refine ⟨?_, ?_⟩
  · exact h.1 ⟨⟨"out.md", "out.md"⟩, some ⟨some [some ⟨"A", "[[A]]"⟩], none⟩⟩
      (by decide) []
  · exact h.2.2.2 presetOut (List.mem_singleton.mpr rfl) ⟨"out.md", "out.md"⟩
      (by simp [filesOut]) (by decide)

/-! ## Claim C8 -/

/-- Membership in the connected-terms fold: an alias is collected iff it
was already collected or it is a non-empty alias, different from the
display name, of one of the processed original link texts. -/
theorem ctFold_mem (d : String) (ts : List String) :
    ∀ (acc : List String) (a : String),
      a ∈ ts.foldl (ctStep d) acc
        ↔ a ∈ acc ∨ (a ≠ "" ∧ a ≠ d ∧ ∃ t ∈ ts, extractAlias t = some a) := by
  induction ts with
  | nil => intro acc a; simp
  | cons t ts ih =>
    intro acc a
    rw [List.foldl_cons, ih]
    cases he : extractAlias t with
    | none =>
      simp only [ctStep, he]
      constructor
      · rintro (h | ⟨h1, h2, t', ht', he'⟩)
        · exact Or.inl h
        · exact Or.inr ⟨h1, h2, t', List.mem_cons_of_mem _ ht', he'⟩
      · rintro (h | ⟨h1, h2, t', ht', he'⟩)
        · exact Or.inl h
        · rcases List.mem_cons.mp ht' with rfl | ht''
          · rw [he] at he'; cases he'
          · exact Or.inr ⟨h1, h2, t', ht'', he'⟩
    | some b =>
      simp only [ctStep, he]
      by_cases hb : b ≠ "" ∧ b ≠ d
      · rw [if_pos hb]
        by_cases hmem : b ∈ acc
        · rw [if_pos hmem]
          constructor
          · rintro (h | ⟨h1, h2, t', ht', he'⟩)
            · exact Or.inl h
            · exact Or.inr ⟨h1, h2, t', List.mem_cons_of_mem _ ht', he'⟩
          · rintro (h | ⟨h1, h2, t', ht', he'⟩)
            · exact Or.inl h
            · rcases List.mem_cons.mp ht' with rfl | ht''
              · rw [he] at he'
                injection he' with hba
                exact Or.inl (hba ▸ hmem)
              · exact Or.inr ⟨h1, h2, t', ht'', he'⟩
        · rw [if_neg hmem]
          constructor
          · rintro (h | ⟨h1, h2, t', ht', he'⟩)
            · rcases List.mem_append.mp h with h | h
              · exact Or.inl h
              · rw [List.mem_singleton] at h
                subst h
                exact Or.inr ⟨hb.1, hb.2, t, List.mem_cons_self _ _, he⟩
            · exact Or.inr ⟨h1, h2, t', List.mem_cons_of_mem _ ht', he'⟩
          · rintro (h | ⟨h1, h2, t', ht', he'⟩)
            · exact Or.inl (List.mem_append_left _ h)
            · rcases List.mem_cons.mp ht' with rfl | ht''
              · rw [he] at he'
                injection he' with hba
                exact Or.inl (List.mem_append_right _ (by simp [hba]))
              · exact Or.inr ⟨h1, h2, t', ht'', he'⟩
      · rw [if_neg hb]
        constructor
        · rintro (h | ⟨h1, h2, t', ht', he'⟩)
          · exact Or.inl h
          · exact Or.inr ⟨h1, h2, t', List.mem_cons_of_mem _ ht', he'⟩
        · rintro (h | ⟨h1, h2, t', ht', he'⟩)
          · exact Or.inl h
          · rcases List.mem_cons.mp ht' with rfl | ht''
            · rw [he] at he'
              injection he' with hba
              subst hba
              exact absurd ⟨h1, h2⟩ hb
            · exact Or.inr ⟨h1, h2, t', ht'', he'⟩

/-- The connected-terms fold preserves distinctness. -/
theorem ctFold_nodup (d : String) (ts : List String) :
    ∀ acc : List String, acc.Nodup → (ts.foldl (ctStep d) acc).Nodup := by
  induction ts with
  | nil => intro acc h; simpa
  | cons t ts ih =>
    intro acc h
    rw [List.foldl_cons]
    apply ih
    cases he : extractAlias t with
    | none => simpa [ctStep, he]
    | some b =>
      by_cases hb : b ≠ "" ∧ b ≠ d
      · by_cases hmem : b ∈ acc
        · simpa [ctStep, he, hb, hmem]
        · simp only [ctStep, he, if_pos hb, if_neg hmem]
          rw [List.nodup_append]
          exact ⟨h, List.nodup_singleton b, by
            intro x hx hsing
            rw [List.mem_singleton] at hsing
            exact hmem (hsing ▸ hx)⟩
      · simpa [ctStep, he, hb]

/-- C8: for every entry, the rendered connected-terms set contains no
empty string and no duplicate, never contains the entry's display name,
and is exactly the set of non-empty aliases extracted from the entry's
stored original reference texts minus the display name. -/
theorem connected_terms_exact (node : IndexNode) :
    "" ∉ connectedTermsOf node
    ∧ (connectedTermsOf node).Nodup
    ∧ node.displayName ∉ connectedTermsOf node
    ∧ (∀ a, a ∈ connectedTermsOf node
        ↔ (a ≠ "" ∧ a ≠ node.displayName
            ∧ ∃ t ∈ node.originalLinks, extractAlias t = some a)) := by
  have hmem := fun a => ctFold_mem node.displayName node.originalLinks [] a
  refine ⟨?_, ?_, ?_, ?_⟩
  · intro h
    rcases (hmem "").mp h with h | ⟨h1, -, -⟩
    · cases h
    · exact h1 rfl
  · exact ctFold_nodup node.displayName node.originalLinks [] List.nodup_nil
  · intro h
    rcases (hmem node.displayName).mp h with h | ⟨-, h2, -⟩
    · cases h
    · exact h2 rfl
  · intro a
    rw [connectedTermsOf, hmem a]
    simp

/-! ## Claim C4 -/

/-- Strict alphabetical order on enumerated entries: strictly smaller
case-folded display name, or equal names and strictly earlier original
position. -/
def alphaRelS (a b : Nat × String × IndexNode) : Prop :=
  jsToLower a.2.2.displayName < jsToLower b.2.2.displayName
    ∨ (jsToLower a.2.2.displayName = jsToLower b.2.2.displayName ∧ a.1 < b.1)

/-- Strict frequency order on enumerated entries: strictly greater count,
or equal counts and strictly earlier original position. -/
def countRelS (a b : Nat × String × IndexNode) : Prop :=
  b.2.2.count < a.2.2.count ∨ (a.2.2.count = b.2.2.count ∧ a.1 < b.1)

/-- The strict order the rendered rows must satisfy under the preset's
sort mode. -/
def sortStrictRel (preset : UsedLinks) : (Nat × String × IndexNode) →
    (Nat × String × IndexNode) → Prop :=
  if preset.sortAlphabetically then alphaRelS else countRelS

/-- An insertion sort of an enumerated list by a total transitive preorder
is pairwise in any relation implied by the preorder on distinct original
positions. -/
theorem pairwise_strict_insertionSort {β : Type}
    (r s : (Nat × β) → (Nat × β) → Prop) [DecidableRel r]
    [IsTotal (Nat × β) r] [IsTrans (Nat × β) r]
    (himp : ∀ a b, r a b → a.1 ≠ b.1 → s a b) (l : List β) :
    (List.insertionSort r l.enum).Pairwise s := by
  have hsorted : (List.insertionSort r l.enum).Pairwise r :=
    List.sorted_insertionSort r l.enum
  have hperm : List.Perm (List.insertionSort r l.enum) l.enum :=
    List.perm_insertionSort r l.enum
  have hnd : (l.enum.map Prod.fst).Nodup := List.nodup_enum_map_fst l
  have hne : l.enum.Pairwise fun a b => a.1 ≠ b.1 := List.pairwise_map.mp hnd
  have hsym : ∀ {x y : Nat × β}, x.1 ≠ y.1 → y.1 ≠ x.1 := fun h he => h he.symm
  have hne2 : (List.insertionSort r l.enum).Pairwise fun a b => a.1 ≠ b.1 :=
    (List.Perm.pairwise_iff hsym hperm).mpr hne
  exact (hsorted.and hne2).imp fun h => himp _ _ h.1 h.2

/-- C4: the rendered data rows follow the sorted entry list, and that list
is pairwise in the strict sort order of the preset's mode — with
`sortAlphabetically` the case-folded display names are non-decreasing and
rows with equal names keep their original insertion order, otherwise the
counts are non-increasing and rows with equal counts keep their original
insertion order. -/
theorem report_rows_sorted (preset : UsedLinks) (m : List (String × IndexNode)) :
    (sortEntriesIdx preset m).Pairwise (sortStrictRel preset)
      ∧ renderRows preset m = (sortEntriesIdx preset m).map fun e => renderRow e.2 := by
  constructor
  · rw [sortEntriesIdx, sortStrictRel]
    by_cases hs : preset.sortAlphabetically = true
    · rw [if_pos hs, if_pos hs]
      refine pairwise_strict_insertionSort alphaRel alphaRelS ?_ m
      intro a b hr hne
      rcases hr with h | ⟨h1, h2⟩
      · exact Or.inl h
      · exact Or.inr ⟨h1, lt_of_le_of_ne h2 hne⟩
    · rw [if_neg hs, if_neg hs]
      refine pairwise_strict_insertionSort countRel countRelS ?_ m
      intro a b hr hne
      rcases hr with h | ⟨h1, h2⟩
      · exact Or.inl h
      · exact Or.inr ⟨h1, lt_of_le_of_ne h2 hne⟩
  · rw [renderRows, sortedEntries, List.map_map]
    rfl

/-! ## Claim C6 -/

/-- C6: parsing `[[Target|alias]]` yields display name `Target` and alias
`alias`; parsing `[[Target]]` yields display name `Target` and no alias
(`extractAlias` returns null). -/
theorem alias_extraction_round_trip :
    extractDisplayName "[[Target|alias]]" = "Target"
    ∧ extractAlias "[[Target|alias]]" = some "alias"
    ∧ extractDisplayName "[[Target]]" = "Target"
    ∧ extractAlias "[[Target]]" = none := by
  decide

/-! ## Claim C7 -/

/-- Counterexample to C7 as stated: `a/./b/./c` and `a/b/c` differ only by
embedded `/./` segments, yet `pathEqual` returns `false` — the regex
`/\/\.\//` has no `g` flag, so only the first `/./` segment collapses. -/
theorem pathEqual_every_dot_segment_cex :
    pathEqual "a/./b/./c" "a/b/c" = false := by
  decide

/-- C7 as amended: `pathEqual` returns true iff the two paths are
identical after normalization — backslashes to `/`, one leading `./`
stripped, and only the FIRST embedded `/./` segment collapsed (the
replacement is single-shot); a pair differing by one embedded `/./`
segment compares equal, while a pair differing by two such segments can
compare unequal. -/
theorem pathEqual_normalized_equality (a b : String) :
    (pathEqual a b = true
        ↔ removeDots (normalizePath a) = removeDots (normalizePath b))
    ∧ pathEqual "x/./y/z" "x/y/z" = true
    ∧ pathEqual "./x/y" "x/y" = true
    ∧ pathEqual "a\\b" "a/b" = true
    ∧ pathEqual "a/./b/./c" "a/b/c" = false := by
  refine ⟨⟨?_, ?_⟩, by decide, by decide, by decide, by decide⟩
  · intro h
    by_cases hab : a = b
    · rw [hab]
    · rw [pathEqual, if_neg hab] at h
      exact beq_iff_eq.mp h
  · intro h
    rw [pathEqual]
    by_cases hab : a = b
    · rw [if_pos hab]
    · rw [if_neg hab]
      exact beq_iff_eq.mpr h

/-! ## Claim C5 -/

/-- The JS split never returns an empty list. -/
theorem jsSplitChar_ne_nil (sep : Char) (l : List Char) :
    jsSplitChar sep l ≠ [] := by
  cases l with
  | nil => simp [jsSplitChar]
  | cons c cs =>
    rw [jsSplitChar]
    cases hs : jsSplitChar sep cs with
    | nil => simp
    | cons h t =>
      by_cases hc : c = sep <;> simp [hc]

/-- The first segment of the JS split is the text before the first
separator. -/
theorem jsSplitChar_head (sep : Char) (l : List Char) :
    (jsSplitChar sep l).headD [] = l.takeWhile (· ≠ sep) := by
  induction l with
  | nil => rfl
  | cons c cs ih =>
    rw [jsSplitChar]
    cases hs : jsSplitChar sep cs with
    | nil => exact absurd hs (jsSplitChar_ne_nil sep cs)
    | cons h t =>
      rw [hs] at ih
      by_cases hc : c = sep
      · simp [hc, List.takeWhile_cons]
      · simp only [if_neg hc, List.headD_cons] at ih ⊢
        simp [List.takeWhile_cons, hc, ih]

/-- The JS split of a list containing the separator is the first segment
followed by the split of everything after the first separator. -/
theorem jsSplitChar_structure (sep : Char) (l : List Char) (h : sep ∈ l) :
    jsSplitChar sep l
      = l.takeWhile (· ≠ sep)
          :: jsSplitChar sep ((l.dropWhile (· ≠ sep)).tail) := by
  induction l with
  | nil => cases h
  | cons c cs ih =>
    rw [jsSplitChar]
    cases hs : jsSplitChar sep cs with
    | nil => exact absurd hs (jsSplitChar_ne_nil sep cs)
    | cons h' t' =>
      by_cases hc : c = sep
      · subst hc
        simp [List.takeWhile_cons, List.dropWhile_cons, hs]
      · have hcs : sep ∈ cs := by
          rcases List.mem_cons.mp h with h0 | h0
          · exact absurd h0.symm hc
          · exact h0
        have ihc := ih hcs
        rw [hs] at ihc
        simp only [if_neg hc]
        rw [List.takeWhile_cons, List.dropWhile_cons]
        have hd : (decide ¬c = sep) = true := by simp [hc]
        simp only [hd, if_true]
        rw [List.cons.injEq] at ihc ⊢
        exact ⟨by rw [ihc.1], ihc.2⟩

/-- Counterexample to C5 as stated: on `[[A|b|c]]` the alias the code
extracts is the text between the first and second separators, `b`, not
all text after the first separator `b|c` — JS `split('|')[1]` drops the
remaining segments. -/
theorem alias_multiple_separators_cex :
    extractAlias "[[A|b|c]]" = some "b"
      ∧ extractAlias "[[A|b|c]]" ≠ some "b|c" := by
  decide

/-- C5 as amended: when the cleaned token contains a separator, the target
path (display name) is the trimmed text before the FIRST separator, and
the alias is the trimmed text strictly between the first and SECOND
separators — text after a second separator is dropped; with no separator
there is no alias; and an alias that is empty is never added as a
connected term. -/
theorem alias_splits_between_first_separators (link : String) :
    ('|' ∈ stripEmbedL (cleanWikiLinkL link.toList)
      → extractDisplayName link
          = (jsTrimL ((stripEmbedL (cleanWikiLinkL link.toList)).takeWhile
              (· ≠ '|'))).asString
        ∧ extractAlias link
          = some (jsTrimL ((((stripEmbedL (cleanWikiLinkL link.toList)).dropWhile
              (· ≠ '|')).tail).takeWhile (· ≠ '|'))).asString)
    ∧ ('|' ∉ stripEmbedL (cleanWikiLinkL link.toList) → extractAlias link = none)
    ∧ (∀ node : IndexNode, "" ∉ connectedTermsOf node) := by
  refine ⟨?_, ?_, ?_⟩
  · intro hmem
    constructor
    · simp only [extractDisplayName, extractDisplayNameL, hmem, if_true]
      rw [jsSplitChar_head]
    · simp only [extractAlias, extractAliasL, hmem, if_true]
      rw [jsSplitChar_structure '|' _ hmem]
      cases hs : jsSplitChar '|' (((stripEmbedL (cleanWikiLinkL link.toList)).dropWhile
          (· ≠ '|')).tail) with
      | nil => exact absurd hs (jsSplitChar_ne_nil _ _)
      | cons p1 t =>
        have hp1 := jsSplitChar_head '|' (((stripEmbedL (cleanWikiLinkL
          link.toList)).dropWhile (· ≠ '|')).tail)
        rw [hs, List.headD_cons] at hp1
        simp [hp1]
  · intro hnot
    have hnot2 : '|' ∉ stripEmbedL (cleanWikiLinkL link.data) := hnot
    simp [extractAlias, extractAliasL, hnot2]
  · intro node h
    rw [connectedTermsOf] at h
    rcases (ctFold_mem node.displayName node.originalLinks [] "").mp h with h0 | ⟨h1, -, -⟩
    · cases h0
    · exact h1 rfl
